import Mathlib

/-!
# getTimeTableYmax.c : `maximumValue`

A shallow embedding of `maximumValue` from
`power_balance/models/Resources/Include/getTimeTableYmax.c`.

Modelling choices.

* `double` values are modelled by rationals: the function only copies and
  compares values (`>`), it does no arithmetic.  NaN and the infinities are
  outside the model.
* A pointer is an `Option`: `none` is `NULL`.  The buffer behind
  `double *table` is a list; a read outside the list is reported as
  `Outcome.outOfBounds` instead of being undefined.
* `size_t` is a natural number below `2 ^ 64`, `int` an integer in
  `[-2 ^ 31, 2 ^ 31)`.  The counter increment wraps modulo `2 ^ 32`, and the
  comparison `i < nRow` converts the counter to `size_t` (modulo `2 ^ 64`).
* A buffer is a C object, so its size in bytes is at most `SIZE_MAX`; with 8-byte
  `double` entries this bounds the number of entries (`IsObject`).
* The call is modelled over explicit state: the memory behind the handle is
  threaded through the call and returned, together with the list of buffer
  indices that were examined (a ghost trace).
-/

namespace PowerBalance

/-- The C struct `CombiTimeTable` together with the buffer its `table` field points to. -/
structure CombiTimeTable where
  /-- Field `char *key`: key consisting of concatenated names of file and table. -/
  key : String
  /-- Field `double *table`: table values, `none` for a null pointer. -/
  table : Option (List ℚ)
  /-- Field `size_t nRow`: number of rows of table. -/
  nRow : Nat
deriving DecidableEq

/-- The argument `void *_tableID`: `none` is the null handle. -/
abbrev TableID := Option CombiTimeTable

/-- How a call ends. -/
inductive Outcome where
  /-- The statement `return yMax` is reached with this value. -/
  | value (yMax : ℚ)
  /-- The entry `table[index]` is read outside the buffer. -/
  | outOfBounds (index : Int)
  /-- The loop was cut off by the iteration budget of the model. -/
  | outOfFuel
deriving DecidableEq

/-- Largest value of `int`. -/
def INT_MAX : Int := 2147483647

/-- Largest value of `size_t`. -/
def SIZE_MAX : Nat := 18446744073709551615

/-- Reduction of an integer to the range of a 32-bit `int` (two's complement). -/
def wrapInt (z : Int) : Int := (z + 2147483648) % 4294967296 - 2147483648

/-- Conversion of an `int` to `size_t`, as done for the comparison `i < nRow`. -/
def toSizeT (i : Int) : Nat := (i % 18446744073709551616).toNat

/-- The macro `TABLE_ROW0(j)`, that is `table[j]`. -/
def TABLE_ROW0 (table : List ℚ) (j : Int) : Option ℚ :=
  if 0 ≤ j then table[j.toNat]? else none

/-- The macro `TABLE_COL0(i)`, that is `table[(i)*nCol]`; `nCol` is free in the macro and
declared nowhere in the file, so it is a parameter here.  `maximumValue` does not use it. -/
def TABLE_COL0 (table : List ℚ) (nCol : Nat) (i : Int) : Option ℚ :=
  if 0 ≤ i * nCol then table[(i * nCol).toNat]? else none

/-- Machine state inside the branch of `maximumValue` that scans the buffer. -/
structure ScanState where
  /-- Memory: the contents of the buffer `table` points to. -/
  table : List ℚ
  /-- Ghost trace: the buffer indices examined so far, oldest first. -/
  visited : List Int
  /-- Local `int i`. -/
  i : Int
  /-- Local `double yMax`. -/
  yMax : ℚ
deriving DecidableEq

/-- The loop body `if (TABLE_ROW0(i) > yMax) yMax = TABLE_ROW0(i);` on the value `v` read. -/
def updateMax (yMax v : ℚ) : ℚ := if v > yMax then v else yMax

/-- The loop `for (i = 1; i < nRow; i++) { ... }` from the state `s`, for at most `fuel`
evaluations of the loop condition.  The two occurrences of `TABLE_ROW0(i)` in the body read the
same entry and are one read here, recorded once in `visited`. -/
def scan (nRow : Nat) : Nat → ScanState → Outcome × ScanState
  | 0, s => (Outcome.outOfFuel, s)
  | fuel + 1, s =>
    if toSizeT s.i < nRow then
      match TABLE_ROW0 s.table s.i with
      | none => (Outcome.outOfBounds s.i, s)
      | some v =>
        scan nRow fuel
          { s with visited := s.visited ++ [s.i], yMax := updateMax s.yMax v, i := wrapInt (s.i + 1) }
    else (Outcome.value s.yMax, s)

/-- Iteration budget of the model: an `int` counter has `2 ^ 32` values. -/
def loopFuel : Nat := 4294967296

/-- What a call of `maximumValue` leaves behind. -/
structure Call where
  /-- The value returned, or the fault. -/
  ret : Outcome
  /-- The memory behind the handle after the call. -/
  mem : TableID
  /-- Ghost trace: the buffer indices examined, oldest first. -/
  visited : List Int
deriving DecidableEq

/-- The function `double maximumValue(void *_tableID)`. -/
def maximumValue (_tableID : TableID) : Call :=
  let yMax : ℚ := 0
  match _tableID with
  | none => ⟨Outcome.value yMax, none, []⟩
  | some tableID =>
    match tableID.table with
    | none => ⟨Outcome.value yMax, some tableID, []⟩
    | some table =>
      let nRow := tableID.nRow
      match TABLE_ROW0 table 0 with
      | none => ⟨Outcome.outOfBounds 0, some tableID, []⟩
      | some y0 =>
        let r := scan nRow loopFuel { table := table, visited := [0], i := 1, yMax := y0 }
        ⟨r.1, some { tableID with table := some r.2.table }, r.2.visited⟩

/-! ## Specification vocabulary -/

/-- The value `y` is the maximum of the column-0 values of a row-major table with `nCol`
columns and `nRow` rows: it is the entry at offset `i * nCol` for some row `i < nRow`, and no
such entry exceeds it. -/
def IsColumn0Max (table : List ℚ) (nCol nRow : Nat) (y : ℚ) : Prop :=
  (∃ i, i < nRow ∧ TABLE_COL0 table nCol (i : Int) = some y) ∧
    ∀ i, i < nRow → ∀ v, TABLE_COL0 table nCol (i : Int) = some v → v ≤ y

/-- The call on a present handle with a present buffer returns the column-0 maximum. -/
def ReturnsColumn0Max (key : String) (table : List ℚ) (nCol nRow : Nat) : Prop :=
  ∃ y, (maximumValue (some ⟨key, some table, nRow⟩)).ret = Outcome.value y ∧
    IsColumn0Max table nCol nRow y

/-- The call returns a number: it reaches `return yMax`. -/
def ReturnsNumber (tableID : TableID) : Prop :=
  ∃ y, (maximumValue tableID).ret = Outcome.value y

/-- Size in bytes of a `double`. -/
def SIZEOF_DOUBLE : Nat := 8

/-- The buffer is a C object: its size in bytes, `sizeof(double)` times the number of entries,
is at most `SIZE_MAX`. -/
def IsObject (table : List ℚ) : Prop := table.length * SIZEOF_DOUBLE ≤ SIZE_MAX

/-- The buffer indices a call read or tried to read, oldest first: the indices examined,
followed by the index of the faulting read when the call ended in one. -/
def Call.reads (c : Call) : List Int :=
  c.visited ++
    (match c.ret with
     | Outcome.outOfBounds index => [index]
     | _ => [])

/-- Every index that the call reads is within the buffer: `TABLE_ROW0` returns an entry at
every index the call read or tried to read, so the call does not end in an out-of-bounds
read. -/
def ReadsWithinBuffer (key : String) (table : List ℚ) (nRow : Nat) : Prop :=
  ∀ j, j ∈ (maximumValue (some ⟨key, some table, nRow⟩)).reads → TABLE_ROW0 table j ≠ none

/-! ## Arithmetic of the counter -/

theorem wrapInt_of_range (z : Int) (h0 : -2147483648 ≤ z) (h1 : z ≤ 2147483647) :
    wrapInt z = z := by
  unfold wrapInt; omega

theorem toSizeT_of_nonneg (k : Nat) (h : k ≤ 2147483647) : toSizeT (k : Int) = k := by
  unfold toSizeT; omega

theorem TABLE_ROW0_natCast (table : List ℚ) (k : Nat) : TABLE_ROW0 table (k : Int) = table[k]? := by
  simp [TABLE_ROW0]

/-! ## The running maximum -/

theorem le_updateMax_left (m v : ℚ) : m ≤ updateMax m v := by
  unfold updateMax; split_ifs with h
  · exact le_of_lt h
  · exact le_refl m

theorem le_updateMax_right (m v : ℚ) : v ≤ updateMax m v := by
  unfold updateMax; split_ifs with h
  · exact le_refl v
  · exact not_lt.mp h

theorem updateMax_eq (m v : ℚ) : updateMax m v = m ∨ updateMax m v = v := by
  unfold updateMax; split_ifs <;> simp

theorem le_foldl_updateMax (l : List ℚ) (m : ℚ) : m ≤ l.foldl updateMax m := by
  induction l generalizing m with
  | nil => simp
  | cons v l ih => exact le_trans (le_updateMax_left m v) (ih _)

theorem mem_le_foldl_updateMax (l : List ℚ) (m v : ℚ) (hv : v ∈ l) : v ≤ l.foldl updateMax m := by
  induction l generalizing m with
  | nil => simp at hv
  | cons w l ih =>
    rcases List.mem_cons.mp hv with rfl | h
    · exact le_trans (le_updateMax_right m v) (le_foldl_updateMax l _)
    · exact ih _ h

theorem foldl_updateMax_mem (l : List ℚ) (m : ℚ) : l.foldl updateMax m = m ∨ l.foldl updateMax m ∈ l := by
  induction l generalizing m with
  | nil => simp
  | cons w l ih =>
    rcases ih (updateMax m w) with h | h
    · rcases updateMax_eq m w with e | e
      · left; rw [List.foldl_cons, h]; exact e
      · right; rw [List.foldl_cons, h, e]; exact List.mem_cons_self _ _
    · right; exact List.mem_cons_of_mem _ h

/-! ## The loop -/

theorem scan_table (nRow fuel : Nat) (s : ScanState) : (scan nRow fuel s).2.table = s.table := by
  induction fuel generalizing s with
  | zero => rfl
  | succ fuel ih =>
    unfold scan
    split_ifs with h
    · split
      · rfl
      · rw [ih]
    · rfl

/-- Running the loop over `n` in-range indices `k, ..., k + n - 1`, none of which makes the
counter overflow before the last increment. -/
theorem scan_run (nRow : Nat) (n : Nat) : ∀ (fuel k : Nat) (s : ScanState),
    s.i = wrapInt (k : Int) → k + n ≤ nRow → k + n ≤ 2147483648 → k + n ≤ s.table.length →
    scan nRow (fuel + n) s = scan nRow fuel
      { table := s.table,
        visited := s.visited ++ (List.range' k n).map Int.ofNat,
        i := wrapInt ((k + n : Nat) : Int),
        yMax := ((s.table.drop k).take n).foldl updateMax s.yMax } := by
  induction n with
  | zero =>
    intro fuel k s hi _ _ _
    cases s
    simp_all
  | succ n ih =>
    intro fuel k s hi h1 h2 h3
    have hk : wrapInt (k : Int) = k := wrapInt_of_range _ (by omega) (by omega)
    have hlt : k < s.table.length := by omega
    rw [show fuel + (n + 1) = (fuel + n) + 1 from rfl, scan]
    rw [hi, hk, toSizeT_of_nonneg k (by omega), if_pos (by omega), TABLE_ROW0_natCast,
      List.getElem?_eq_getElem hlt]
    simp only
    rw [ih fuel (k + 1) _ (by simp) (by omega) (by omega) (by simpa using by omega)]
    have e1 : k + 1 + n = k + (n + 1) := by omega
    have e2 : (s.table.drop k).take (n + 1) = s.table[k] :: (s.table.drop (k + 1)).take n := by
      rw [List.drop_eq_getElem_cons hlt, List.take_succ_cons]
    have e3 : (List.range' k (n + 1)).map Int.ofNat
        = [(k : Int)] ++ (List.range' (k + 1) n).map Int.ofNat := by
      simp [List.range'_succ]
    simp only [e1, e2, e3, List.foldl_cons, List.append_assoc]

theorem mem_take_drop_iff (table : List ℚ) (k n : Nat) (v : ℚ) :
    v ∈ (table.drop k).take n ↔ ∃ j, j < n ∧ table[k + j]? = some v := by
  rw [List.mem_iff_getElem?]
  constructor
  · rintro ⟨j, hj⟩
    rw [List.getElem?_take, List.getElem?_drop] at hj
    by_cases hjn : j < n
    · rw [if_pos hjn] at hj
      exact ⟨j, hjn, hj⟩
    · rw [if_neg hjn] at hj
      cases hj
  · rintro ⟨j, hjn, hj⟩
    refine ⟨j, ?_⟩
    rw [List.getElem?_take, List.getElem?_drop, if_pos hjn]
    exact hj

/-- The loop stops, and `return yMax` is reached, once the condition `i < nRow` fails. -/
theorem scan_exit (nRow fuel : Nat) (table : List ℚ) (visited : List Int) (i : Int) (yMax : ℚ)
    (h : ¬ toSizeT i < nRow) :
    scan nRow (fuel + 1) ⟨table, visited, i, yMax⟩
      = (Outcome.value yMax, ⟨table, visited, i, yMax⟩) := by
  rw [scan]
  exact if_neg h

/-- The whole call on a table whose scan stays inside the buffer and below `INT_MAX`. -/
theorem maximumValue_inRange (key : String) (table : List ℚ) (nRow : Nat) (y0 : ℚ)
    (h0 : table[0]? = some y0) (h1 : 1 ≤ nRow) (h2 : nRow ≤ 2147483647)
    (h3 : nRow ≤ table.length) :
    maximumValue (some ⟨key, some table, nRow⟩) =
      ⟨Outcome.value (((table.drop 1).take (nRow - 1)).foldl updateMax y0),
       some ⟨key, some table, nRow⟩,
       [(0 : Int)] ++ (List.range' 1 (nRow - 1)).map Int.ofNat⟩ := by
  have hrow : TABLE_ROW0 table 0 = some y0 := by
    rw [← h0]; exact TABLE_ROW0_natCast table 0
  obtain ⟨F, hF⟩ : ∃ F, loopFuel = (F + 1) + (nRow - 1) :=
    ⟨4294967295 - (nRow - 1), by unfold loopFuel; omega⟩
  have hend : wrapInt ((1 + (nRow - 1) : Nat) : Int) = (nRow : Int) := by
    rw [show 1 + (nRow - 1) = nRow by omega]
    exact wrapInt_of_range _ (by omega) (by omega)
  have hstart : (1 : Int) = wrapInt ((1 : Nat) : Int) :=
    (wrapInt_of_range ((1 : Nat) : Int) (by omega) (by omega)).symm
  have hstop : ¬ toSizeT (wrapInt ((1 + (nRow - 1) : Nat) : Int)) < nRow := by
    rw [hend, toSizeT_of_nonneg nRow h2]
    exact lt_irrefl nRow
  unfold maximumValue
  simp only [hrow]
  rw [hF, scan_run nRow (nRow - 1) (F + 1) 1 _ hstart (by omega) (by omega)
    (by show 1 + (nRow - 1) ≤ table.length; omega)]
  rw [scan_exit nRow F _ _ _ _ hstop]

/-- The memory behind the handle is the same after the call. -/
theorem call_mem (tableID : TableID) : (maximumValue tableID).mem = tableID := by
  rcases tableID with _ | ⟨key, _ | table, nRow⟩
  · rfl
  · rfl
  · unfold maximumValue
    dsimp only
    split
    · rfl
    · rw [scan_table]

/-- The trace only grows during the loop. -/
theorem scan_visited (nRow fuel : Nat) (s : ScanState) :
    ∃ l, (scan nRow fuel s).2.visited = s.visited ++ l := by
  induction fuel generalizing s with
  | zero => exact ⟨[], by simp [scan]⟩
  | succ fuel ih =>
    unfold scan
    split_ifs with h
    · split
      · exact ⟨[], by simp⟩
      · rename_i v _
        obtain ⟨l, hl⟩ := ih ⟨s.table, s.visited ++ [s.i], wrapInt (s.i + 1), updateMax s.yMax v⟩
        exact ⟨s.i :: l, by rw [hl]; simp⟩
    · exact ⟨[], by simp⟩

theorem TABLE_ROW0_neg (table : List ℚ) (j : Int) (h : j < 0) : TABLE_ROW0 table j = none := by
  unfold TABLE_ROW0
  rw [if_neg (by omega)]

/-- The loop stops with a fault when the condition holds and the read is outside the buffer. -/
theorem scan_fault (nRow fuel : Nat) (table : List ℚ) (visited : List Int) (i : Int) (yMax : ℚ)
    (h : toSizeT i < nRow) (hread : TABLE_ROW0 table i = none) :
    scan nRow (fuel + 1) ⟨table, visited, i, yMax⟩
      = (Outcome.outOfBounds i, ⟨table, visited, i, yMax⟩) := by
  rw [scan]
  dsimp only
  rw [if_pos h, hread]

/-- The whole call when the scan reaches index `m - 1`, where `m` is `nRow` or, for tables of
more than `2 ^ 31` rows, `2 ^ 31`: the counter then wraps to `-2 ^ 31`, which converts to
`2 ^ 64 - 2 ^ 31`, and the loop stops. -/
theorem maximumValue_upTo (key : String) (table : List ℚ) (nRow m : Nat) (y0 : ℚ)
    (h0 : table[0]? = some y0) (h1 : 1 ≤ m) (hm : m = nRow ∨ (m = 2147483648 ∧ m ≤ nRow))
    (hm2 : m ≤ 2147483648) (hRow : nRow ≤ 18446744071562067968) (h3 : m ≤ table.length) :
    maximumValue (some ⟨key, some table, nRow⟩) =
      ⟨Outcome.value (((table.drop 1).take (m - 1)).foldl updateMax y0),
       some ⟨key, some table, nRow⟩,
       [(0 : Int)] ++ (List.range' 1 (m - 1)).map Int.ofNat⟩ := by
  have hrow : TABLE_ROW0 table 0 = some y0 := by
    rw [← h0]; exact TABLE_ROW0_natCast table 0
  obtain ⟨F, hF⟩ : ∃ F, loopFuel = (F + 1) + (m - 1) :=
    ⟨4294967295 - (m - 1), by unfold loopFuel; omega⟩
  have hstart : (1 : Int) = wrapInt ((1 : Nat) : Int) :=
    (wrapInt_of_range ((1 : Nat) : Int) (by omega) (by omega)).symm
  have hstop : ¬ toSizeT (wrapInt ((1 + (m - 1) : Nat) : Int)) < nRow := by
    rw [show 1 + (m - 1) = m by omega]
    unfold toSizeT wrapInt
    omega
  unfold maximumValue
  simp only [hrow]
  rw [hF, scan_run nRow (m - 1) (F + 1) 1 _ hstart (by omega) (by omega)
    (by show 1 + (m - 1) ≤ table.length; omega)]
  rw [scan_exit nRow F _ _ _ _ hstop]

/-! ## The claims -/

/-- C1 (as stated, refuted): for the two-column table with rows (0,5),(1,3), whose buffer
holds `nRow * nCol` entries, `maximumValue` does not return the maximum of the column-0
values: it returns 5, the column-0 values are 0 and 1. -/
theorem maximumValue_not_column0_max :
    (1 ≤ 2 ∧ 1 ≤ 2 ∧ 2 * 2 ≤ [(0 : ℚ), 5, 1, 3].length) ∧
      ¬ ReturnsColumn0Max "k" [0, 5, 1, 3] 2 2 := by
  refine ⟨by decide, ?_⟩
  rintro ⟨y, hy, ⟨i, hi, hcol⟩, -⟩
  have hret : (maximumValue (some ⟨"k", some [0, 5, 1, 3], 2⟩)).ret = Outcome.value 5 := by
    decide
  rw [hret] at hy
  injection hy with hy
  subst hy
  interval_cases i
  · revert hcol; decide
  · revert hcol; decide

/-- C1 (amended): for every table with a present buffer, a single column (`nCol = 1`),
`1 ≤ nRow ≤ INT_MAX` and a buffer of at least `nRow * nCol` entries, `maximumValue` returns the
maximum of the column-0 values, the entries at offsets `i * nCol` for `i < nRow`. -/
theorem maximumValue_column0_max_single_column (key : String) (table : List ℚ) (nCol nRow : Nat)
    (hCol : nCol = 1) (hRow : 1 ≤ nRow) (hMax : (nRow : Int) ≤ INT_MAX)
    (hLen : nRow * nCol ≤ table.length) :
    ReturnsColumn0Max key table nCol nRow := by
  subst hCol
  have hMax2 : nRow ≤ 2147483647 := by unfold INT_MAX at hMax; omega
  have hLen2 : nRow ≤ table.length := by omega
  have hlt : 0 < table.length := by omega
  have h0 : table[0]? = some table[0] := List.getElem?_eq_getElem hlt
  have hcol : ∀ i : Nat, TABLE_COL0 table 1 (i : Int) = table[i]? := by
    intro i; simp [TABLE_COL0]
  refine ⟨_, by rw [maximumValue_inRange key table nRow _ h0 hRow hMax2 hLen2], ?_, ?_⟩
  · rcases foldl_updateMax_mem ((table.drop 1).take (nRow - 1)) table[0] with h | h
    · exact ⟨0, by omega, by rw [hcol, h, h0]⟩
    · obtain ⟨j, hj, hv⟩ := (mem_take_drop_iff table 1 (nRow - 1) _).mp h
      exact ⟨1 + j, by omega, by rw [hcol, hv]⟩
  · intro i hi v hv
    rw [hcol] at hv
    rcases Nat.eq_zero_or_pos i with rfl | hpos
    · rw [h0] at hv
      injection hv with hv
      rw [← hv]
      exact le_foldl_updateMax _ _
    · refine mem_le_foldl_updateMax _ _ v ((mem_take_drop_iff table 1 (nRow - 1) v).mpr ?_)
      exact ⟨i - 1, by omega, by rw [show 1 + (i - 1) = i by omega]; exact hv⟩

/-- C1 (amended), at the single-column table 5, 3, 9.2, 1 with four rows. -/
theorem maximumValue_column0_max_single_column_witness :
    (1 = 1 ∧ 1 ≤ 4 ∧ ((4 : Nat) : Int) ≤ INT_MAX ∧ 4 * 1 ≤ [(5 : ℚ), 3, 9.2, 1].length) ∧
      ReturnsColumn0Max "k" [5, 3, 9.2, 1] 1 4 :=
  ⟨by decide,
   maximumValue_column0_max_single_column "k" [5, 3, 9.2, 1] 1 4 rfl (by decide) (by decide)
     (by decide)⟩

/-- C2: `maximumValue` applied to the null handle returns exactly 0.0. -/
theorem maximumValue_null_handle : (maximumValue none).ret = Outcome.value 0 := rfl

/-- C3: for every present handle whose buffer is null, whatever its key and its `nRow`,
`maximumValue` returns exactly 0.0. -/
theorem maximumValue_null_buffer (key : String) (nRow : Nat) :
    (maximumValue (some ⟨key, none, nRow⟩)).ret = Outcome.value 0 := rfl

/-- C4 (the code at the failing input): with a present one-entry buffer holding 7 and
`nRow = 0`, `maximumValue` examines the buffer entry at index 0 and returns it, not 0.0; with
an empty buffer the read of index 0 is outside the buffer. -/
theorem maximumValue_zero_rows_reads_entry0 :
    (maximumValue (some ⟨"k", some [7], 0⟩)).ret = Outcome.value 7 ∧
      (maximumValue (some ⟨"k", some [7], 0⟩)).visited = [0] ∧
      (maximumValue (some ⟨"k", some [], 0⟩)).ret = Outcome.outOfBounds 0 := by
  decide

/-- C5 (as stated, refuted): on a present one-entry buffer with `nRow = 2` the call does not
return a number: the read of index 1 is outside the buffer. -/
theorem maximumValue_short_buffer_fails :
    (maximumValue (some ⟨"k", some [1], 2⟩)).ret = Outcome.outOfBounds 1 ∧
      ¬ ReturnsNumber (some ⟨"k", some [1], 2⟩) := by
  have hret : (maximumValue (some ⟨"k", some [1], 2⟩)).ret = Outcome.outOfBounds 1 := by
    decide
  refine ⟨hret, ?_⟩
  rintro ⟨y, hy⟩
  rw [hret] at hy
  cases hy

/-- C5 (amended): `maximumValue` returns a number, and reads nothing outside the buffer, for
the null handle, for a present handle with a null buffer, and for a present buffer holding at
least `nRow` entries with `1 ≤ nRow ≤ INT_MAX`. -/
theorem maximumValue_returns_number (tableID : TableID)
    (h : ∀ t table, tableID = some t → t.table = some table →
      1 ≤ t.nRow ∧ (t.nRow : Int) ≤ INT_MAX ∧ t.nRow ≤ table.length) :
    ReturnsNumber tableID := by
  rcases tableID with _ | ⟨key, _ | table, nRow⟩
  · exact ⟨0, rfl⟩
  · exact ⟨0, rfl⟩
  · obtain ⟨h1, h2, h3⟩ := h _ table rfl rfl
    have h2 : nRow ≤ 2147483647 := by unfold INT_MAX at h2; exact Int.ofNat_le.mp h2
    have h3 : nRow ≤ table.length := h3
    have hlt : 0 < table.length := by omega
    exact ⟨_, by rw [maximumValue_inRange key table nRow _ (List.getElem?_eq_getElem hlt) h1 h2 h3]⟩

/-- C5 (amended), at the buffer 0, 2, 1, 2 with `nRow = 2`. -/
theorem maximumValue_returns_number_witness :
    ReturnsNumber (some ⟨"k", some [0, 2, 1, 2], 2⟩) :=
  maximumValue_returns_number (some ⟨"k", some [0, 2, 1, 2], 2⟩) (by
    intro t table ht htab
    injection ht with ht
    subst ht
    injection htab with htab
    subst htab
    decide)

/-- C6 (the code at the failing input): the two-column table with rows (0,5),(1,3) and the
same table with its two rows swapped give different results, 5 and 3. -/
theorem maximumValue_row_swap_differs :
    List.Perm [[(1 : ℚ), 3], [0, 5]] [[0, 5], [1, 3]] ∧
      (maximumValue (some ⟨"k", some (List.flatten [[0, 5], [1, 3]]), 2⟩)).ret = Outcome.value 5 ∧
      (maximumValue (some ⟨"k", some (List.flatten [[1, 3], [0, 5]]), 2⟩)).ret = Outcome.value 3 :=
  ⟨List.Perm.swap _ _ _, by decide, by decide⟩

/-- C7 (the code at the failing input): on the buffer 0, 5.0, 1, 3.0, 2, 9.2, 3, 1.0 with
`nRow = 4` the call examines the indices 0, 1, 2, 3 and returns 5.0, not 9.2. -/
theorem maximumValue_scenario_four_rows :
    (maximumValue (some ⟨"k", some [0, 5.0, 1, 3.0, 2, 9.2, 3, 1.0], 4⟩)).ret = Outcome.value 5 ∧
      (maximumValue (some ⟨"k", some [0, 5.0, 1, 3.0, 2, 9.2, 3, 1.0], 4⟩)).visited
        = [0, 1, 2, 3] := by
  rw [maximumValue_inRange "k" _ 4 0 rfl (by decide) (by decide) (by decide)]
  constructor
  · norm_num [updateMax]
  · simp [List.range']

/-- C8 (the code at the failing input): on the buffer 0, -4.5 with `nRow = 1` the call
examines index 0 only and returns 0, not -4.5. -/
theorem maximumValue_scenario_single_row :
    (maximumValue (some ⟨"k", some [0, -4.5], 1⟩)).ret = Outcome.value 0 ∧
      (maximumValue (some ⟨"k", some [0, -4.5], 1⟩)).visited = [0] := by
  decide

/-- C9: on the buffer 0, 2.0, 1, 2.0 with `nRow = 2` (rows (0,2.0),(1,2.0)) the call
returns 2.0. -/
theorem maximumValue_scenario_equal_rows :
    (maximumValue (some ⟨"k", some [0, 2.0, 1, 2.0], 2⟩)).ret = Outcome.value 2.0 := by
  rw [maximumValue_inRange "k" _ 2 0 rfl (by decide) (by decide) (by decide)]
  norm_num [updateMax]

/-- C10: `maximumValue` has no side effect on the table: for every handle the memory behind
the handle after the call (the key, the buffer contents and `nRow`) equals the memory before
the call. -/
theorem maximumValue_mem_unchanged (tableID : TableID) : (maximumValue tableID).mem = tableID := by
  rcases tableID with _ | ⟨key, _ | table, nRow⟩
  · rfl
  · rfl
  · unfold maximumValue
    dsimp only
    split
    · rfl
    · rw [scan_table]

/-- C11: idempotence: for every handle, a second call of `maximumValue` on the memory left by
the first call returns the same result as the first call. -/
theorem maximumValue_idempotent (tableID : TableID) :
    (maximumValue (maximumValue tableID).mem).ret = (maximumValue tableID).ret := by
  rw [call_mem]

/-- C12: once the handle and the buffer are present, the entry at index 0 is read whatever
`nRow` is: with a non-empty buffer index 0 is the first index examined, and for `nRow = 0` the
result is the entry at index 0 and nothing else is examined; with an empty buffer the read of
index 0 is outside the buffer. -/
theorem maximumValue_reads_entry0_unconditionally (key : String) (y0 : ℚ) (rest : List ℚ)
    (nRow : Nat) :
    (maximumValue (some ⟨key, some (y0 :: rest), nRow⟩)).visited.head? = some 0 ∧
      (maximumValue (some ⟨key, some (y0 :: rest), 0⟩)).ret = Outcome.value y0 ∧
      (maximumValue (some ⟨key, some (y0 :: rest), 0⟩)).visited = [0] ∧
      (maximumValue (some ⟨key, some [], nRow⟩)).ret = Outcome.outOfBounds 0 := by
  have hrow : TABLE_ROW0 (y0 :: rest) 0 = some y0 := by
    have h := TABLE_ROW0_natCast (y0 :: rest) 0
    rw [List.getElem?_cons_zero] at h
    exact h
  have hfuel : loopFuel = 4294967295 + 1 := rfl
  have hstop : ¬ toSizeT 1 < 0 := Nat.not_lt_zero _
  refine ⟨?_, ?_, ?_, rfl⟩
  · unfold maximumValue
    simp only [hrow]
    obtain ⟨l, hl⟩ := scan_visited nRow loopFuel ⟨y0 :: rest, [0], 1, y0⟩
    rw [hl]
    rfl
  · unfold maximumValue
    simp only [hrow]
    rw [hfuel, scan_exit 0 _ _ _ _ _ hstop]
  · unfold maximumValue
    simp only [hrow]
    rw [hfuel, scan_exit 0 _ _ _ _ _ hstop]

/-- C13: with the 32-bit counter wrapping and converted to the 64-bit unsigned row-count type
for `i < nRow`, there is a table with `nRow > 2 ^ 31` rows, namely `2 ^ 31` zeros followed by
a one with `nRow = 2 ^ 31 + 1`, whose scan stops after index `2 ^ 31 - 1`: every index
examined is below `2 ^ 31`, the entry 1 at index `2 ^ 31 < nRow` is never examined, and the
result 0 is smaller than that entry. -/
theorem maximumValue_counter_wraps :
    ∃ (table : List ℚ) (nRow : Nat) (y v : ℚ),
      2147483648 < nRow ∧ nRow ≤ SIZE_MAX ∧ nRow ≤ table.length ∧
        (maximumValue (some ⟨"k", some table, nRow⟩)).ret = Outcome.value y ∧
        (maximumValue (some ⟨"k", some table, nRow⟩)).visited
          = [(0 : Int)] ++ (List.range' 1 2147483647).map Int.ofNat ∧
        (∀ j, j ∈ (maximumValue (some ⟨"k", some table, nRow⟩)).visited → j < 2147483648) ∧
        table[2147483648]? = some v ∧ y < v := by
  have hlen : (List.replicate 2147483648 (0 : ℚ) ++ [1]).length = 2147483649 := by
    rw [List.length_append, List.length_replicate, List.length_singleton]
  have hzero : ∀ j, j < 2147483648 →
      (List.replicate 2147483648 (0 : ℚ) ++ [1])[j]? = some 0 := by
    intro j hj
    rw [List.getElem?_append_left (by rw [List.length_replicate]; exact hj),
      List.getElem?_replicate_of_lt hj]
  have hlast : (List.replicate 2147483648 (0 : ℚ) ++ [1])[2147483648]? = some 1 := by
    rw [List.getElem?_append_right (by rw [List.length_replicate]), List.length_replicate,
      Nat.sub_self, List.getElem?_cons_zero]
  refine ⟨List.replicate 2147483648 0 ++ [1], 2147483649, 0, 1, ?_⟩
  generalize List.replicate 2147483648 (0 : ℚ) ++ [1] = table at hlen hzero hlast ⊢
  have hcall := maximumValue_upTo "k" table 2147483649 2147483648 0 (hzero 0 (by omega))
    (by omega) (Or.inr ⟨rfl, by omega⟩) (by omega) (by omega) (by rw [hlen]; omega)
  have hfold : List.foldl updateMax 0 ((table.drop 1).take (2147483648 - 1)) = 0 := by
    rcases foldl_updateMax_mem ((table.drop 1).take (2147483648 - 1)) 0 with h | h
    · exact h
    · obtain ⟨j, hj, hv⟩ := (mem_take_drop_iff table 1 (2147483648 - 1) _).mp h
      have hz := hzero (1 + j) (by omega)
      rw [hz] at hv
      injection hv with hv
      exact hv.symm
  refine ⟨by omega, by unfold SIZE_MAX; omega, by rw [hlen], ?_, ?_, ?_, hlast, by norm_num⟩
  · rw [hcall, hfold]
  · rw [hcall]
  · rw [hcall]
    intro j hj
    rcases List.mem_append.mp hj with h | h
    · rw [List.mem_singleton.mp h]; omega
    · obtain ⟨a, ha, rfl⟩ := List.mem_map.mp h
      have := List.mem_range'_1.mp ha
      show (a : Int) < 2147483648
      omega

/-- C14: for every table with a present buffer of at least `nRow` entries and
`1 ≤ nRow ≤ INT_MAX`, `maximumValue` returns the maximum of the first `nRow` contiguous buffer
entries: the result is the entry at some index below `nRow` and is at least every such entry.
The result is the same for every key and for every buffer with the same first `nRow` entries;
no column count enters the call. -/
theorem maximumValue_contiguous_max (key : String) (table : List ℚ) (nRow : Nat)
    (hRow : 1 ≤ nRow) (hMax : (nRow : Int) ≤ INT_MAX) (hLen : nRow ≤ table.length) :
    ∃ y, (maximumValue (some ⟨key, some table, nRow⟩)).ret = Outcome.value y ∧
      (∃ i, i < nRow ∧ table[i]? = some y) ∧
      (∀ i, i < nRow → ∀ v, table[i]? = some v → v ≤ y) ∧
      ∀ (key' : String) (table' : List ℚ), table'.take nRow = table.take nRow →
        (maximumValue (some ⟨key', some table', nRow⟩)).ret = Outcome.value y := by
  have hMax2 : nRow ≤ 2147483647 := by unfold INT_MAX at hMax; omega
  have hlt : 0 < table.length := by omega
  have h0 : table[0]? = some table[0] := List.getElem?_eq_getElem hlt
  have hsucc : 1 + (nRow - 1) = nRow := by omega
  refine ⟨_, by rw [maximumValue_inRange key table nRow _ h0 hRow hMax2 hLen], ?_, ?_, ?_⟩
  · rcases foldl_updateMax_mem ((table.drop 1).take (nRow - 1)) table[0] with h | h
    · exact ⟨0, by omega, by rw [h, h0]⟩
    · obtain ⟨j, hj, hv⟩ := (mem_take_drop_iff table 1 (nRow - 1) _).mp h
      exact ⟨1 + j, by omega, hv⟩
  · intro i hi v hv
    rcases Nat.eq_zero_or_pos i with rfl | hpos
    · rw [h0] at hv
      injection hv with hv
      rw [← hv]
      exact le_foldl_updateMax _ _
    · refine mem_le_foldl_updateMax _ _ v ((mem_take_drop_iff table 1 (nRow - 1) v).mpr ?_)
      exact ⟨i - 1, by omega, by rw [show 1 + (i - 1) = i by omega]; exact hv⟩
  · intro key' table' htake
    have hLen' : nRow ≤ table'.length := by
      have h := congrArg List.length htake
      rw [List.length_take, List.length_take] at h
      omega
    have h0' : table'[0]? = some table[0] := by
      rw [← List.getElem?_take_of_lt (show 0 < nRow by omega), htake,
        List.getElem?_take_of_lt (show 0 < nRow by omega), h0]
    have hrest : (table'.drop 1).take (nRow - 1) = (table.drop 1).take (nRow - 1) := by
      rw [List.take_drop, List.take_drop, hsucc, htake]
    rw [maximumValue_inRange key' table' nRow _ h0' hRow hMax2 hLen', hrest]

/-- C14, at the buffer 0, 5, 1, 3 with `nRow = 2`. -/
theorem maximumValue_contiguous_max_witness :
    ∃ y, (maximumValue (some ⟨"k", some [0, 5, 1, 3], 2⟩)).ret = Outcome.value y ∧
      (∃ i, i < 2 ∧ [(0 : ℚ), 5, 1, 3][i]? = some y) ∧
      (∀ i, i < 2 → ∀ v, [(0 : ℚ), 5, 1, 3][i]? = some v → v ≤ y) ∧
      ∀ (key' : String) (table' : List ℚ), table'.take 2 = [(0 : ℚ), 5, 1, 3].take 2 →
        (maximumValue (some ⟨key', some table', 2⟩)).ret = Outcome.value y :=
  maximumValue_contiguous_max "k" [0, 5, 1, 3] 2 (by decide) (by decide) (by decide)

/-- C15: under the data-model invariant (buffer present, `nCol ≥ 1`, `nRow ≥ 1`, buffer
length at least `(nRow - 1) * nCol + 1`), for every buffer that is a C object, every index
that `maximumValue` reads is within the buffer: the call reaches `return yMax`, and
`TABLE_ROW0` returns an entry at every index the call read or tried to read. -/
theorem maximumValue_reads_within_buffer (key : String) (table : List ℚ) (nCol nRow : Nat)
    (hObj : IsObject table) (hCol : 1 ≤ nCol) (hRow : 1 ≤ nRow)
    (hLen : (nRow - 1) * nCol + 1 ≤ table.length) :
    ReadsWithinBuffer key table nRow ∧
      ∃ y, (maximumValue (some ⟨key, some table, nRow⟩)).ret = Outcome.value y := by
  have hLen2 : nRow ≤ table.length := by
    have : nRow - 1 ≤ (nRow - 1) * nCol := Nat.le_mul_of_pos_right _ hCol
    omega
  have hBound : nRow ≤ 18446744071562067968 := by
    unfold IsObject SIZEOF_DOUBLE SIZE_MAX at hObj
    omega
  have hlt : 0 < table.length := by omega
  have h0 : table[0]? = some table[0] := List.getElem?_eq_getElem hlt
  obtain ⟨m, hm1, hm, hm2, hm3⟩ : ∃ m, 1 ≤ m ∧ (m = nRow ∨ (m = 2147483648 ∧ m ≤ nRow)) ∧
      m ≤ 2147483648 ∧ m ≤ table.length := by
    rcases Nat.lt_or_ge nRow 2147483648 with h | h
    · exact ⟨nRow, hRow, Or.inl rfl, by omega, hLen2⟩
    · exact ⟨2147483648, by omega, Or.inr ⟨rfl, h⟩, by omega, by omega⟩
  have hcall := maximumValue_upTo key table nRow m _ h0 hm1 hm hm2 hBound hm3
  refine ⟨?_, _, by rw [hcall]⟩
  intro j hj
  unfold ReadsWithinBuffer at *
  rw [hcall] at hj
  have hj2 : j ∈ ([(0 : Int)] ++ (List.range' 1 (m - 1)).map Int.ofNat) ++ [] := hj
  rw [List.append_nil] at hj2
  rcases List.mem_append.mp hj2 with h | h
  · have hr0 : TABLE_ROW0 table 0 = table[0]? := TABLE_ROW0_natCast table 0
    rw [List.mem_singleton.mp h, hr0, h0]
    exact Option.some_ne_none _
  · obtain ⟨a, ha, rfl⟩ := List.mem_map.mp h
    have ha2 := List.mem_range'_1.mp ha
    have hlt2 : a < table.length := by omega
    show TABLE_ROW0 table (a : Int) ≠ none
    rw [TABLE_ROW0_natCast, List.getElem?_eq_getElem hlt2]
    exact Option.some_ne_none _

/-- C15, at the two-column table with rows (0,5),(1,3). -/
theorem maximumValue_reads_within_buffer_witness :
    ReadsWithinBuffer "k" [0, 5, 1, 3] 2 ∧
      ∃ y, (maximumValue (some ⟨"k", some [0, 5, 1, 3], 2⟩)).ret = Outcome.value y :=
  maximumValue_reads_within_buffer "k" [0, 5, 1, 3] 2 2 (by unfold IsObject; decide)
    (by decide) (by decide) (by decide)

/-- C16: for every table with `nRow ≤ INT_MAX` whose buffer holds at least `nRow` entries, the
scan loop, started as in `maximumValue` with the counter at 1, terminates within
`(nRow - 1) + 1` evaluations of its condition and reaches `return yMax`; the body runs
`nRow - 1` times (0 times for `nRow = 0`), on the indices 1, ..., `nRow - 1` in increasing
order, once each; the counter ends at `1 + (nRow - 1)`, not above `INT_MAX`, so no increment
overflowed. -/
theorem scan_terminates (table : List ℚ) (y0 : ℚ) (nRow fuel : Nat)
    (hMax : (nRow : Int) ≤ INT_MAX) (hLen : nRow ≤ table.length)
    (hFuel : (nRow - 1) + 1 ≤ fuel) :
    ∃ sf : ScanState, scan nRow fuel ⟨table, [0], 1, y0⟩ = (Outcome.value sf.yMax, sf) ∧
      sf.visited = [(0 : Int)] ++ (List.range' 1 (nRow - 1)).map Int.ofNat ∧
      sf.visited.length = 1 + (nRow - 1) ∧
      sf.i = 1 + ((nRow - 1 : Nat) : Int) ∧ sf.i ≤ INT_MAX := by
  have hMax2 : nRow ≤ 2147483647 := by unfold INT_MAX at hMax; omega
  obtain ⟨F, hF⟩ : ∃ F, fuel = (F + 1) + (nRow - 1) := ⟨fuel - 1 - (nRow - 1), by omega⟩
  have hstart : (1 : Int) = wrapInt ((1 : Nat) : Int) :=
    (wrapInt_of_range ((1 : Nat) : Int) (by omega) (by omega)).symm
  have hend : wrapInt ((1 + (nRow - 1) : Nat) : Int) = 1 + ((nRow - 1 : Nat) : Int) := by
    rw [wrapInt_of_range _ (by omega) (by omega)]
    omega
  have hstop : ¬ toSizeT (wrapInt ((1 + (nRow - 1) : Nat) : Int)) < nRow := by
    rw [wrapInt_of_range _ (by omega) (by omega), toSizeT_of_nonneg _ (by omega)]
    omega
  rcases Nat.eq_zero_or_pos nRow with hz | hpos
  · subst hz
    have hstop0 : ¬ toSizeT 1 < 0 := Nat.not_lt_zero _
    refine ⟨⟨table, [0], 1, y0⟩, ?_, rfl, rfl, rfl, ?_⟩
    · rw [hF, scan_exit 0 _ _ _ _ _ hstop0]
    · show (1 : Int) ≤ INT_MAX
      unfold INT_MAX
      omega
  · refine ⟨⟨table, [(0 : Int)] ++ (List.range' 1 (nRow - 1)).map Int.ofNat,
      wrapInt ((1 + (nRow - 1) : Nat) : Int),
      ((table.drop 1).take (nRow - 1)).foldl updateMax y0⟩, ?_, rfl, ?_, hend, ?_⟩
    · rw [hF, scan_run nRow (nRow - 1) (F + 1) 1 _ hstart (by omega) (by omega)
        (by show 1 + (nRow - 1) ≤ table.length; omega)]
      rw [scan_exit nRow F _ _ _ _ hstop]
    · show ([(0 : Int)] ++ (List.range' 1 (nRow - 1)).map Int.ofNat).length = 1 + (nRow - 1)
      rw [List.length_append, List.length_map, List.length_range', List.length_singleton]
    · show wrapInt ((1 + (nRow - 1) : Nat) : Int) ≤ INT_MAX
      rw [hend]
      unfold INT_MAX
      omega

/-- C16, at the buffer 0, 5, 1, 3 with `nRow = 4` and the iteration budget of `maximumValue`. -/
theorem scan_terminates_witness :
    ∃ sf : ScanState, scan 4 loopFuel ⟨[0, 5, 1, 3], [0], 1, 0⟩ = (Outcome.value sf.yMax, sf) ∧
      sf.visited = [(0 : Int)] ++ (List.range' 1 (4 - 1)).map Int.ofNat ∧
      sf.visited.length = 1 + (4 - 1) ∧
      sf.i = 1 + ((4 - 1 : Nat) : Int) ∧ sf.i ≤ INT_MAX :=
  scan_terminates [0, 5, 1, 3] 0 4 loopFuel (by decide) (by decide) (by decide)

end PowerBalance
